import Mathlib

/-!
Shallow embedding of `pennylane/hf/tapering.py` (qubit-tapering symmetry
generation): binary (Z|X) encoding of Pauli terms, GF(2) row reduction,
nullspace extraction, and construction of symmetry generators together with
their anticommuting single-qubit Pauli-X operators.

Matrices are `List (List Nat)` with entries 0/1 (numpy int arrays of bits);
GF(2) addition is bitwise xor, which on 0/1 entries coincides with numpy's
`^` on ints.
-/

namespace Tapering

/-- Single-qubit Pauli labels; models the operator names
`"Identity"/"PauliX"/"PauliY"/"PauliZ"` used by `tapering.py`.
Modelled from the spec: "an ordered list of (single-qubit Pauli label ∈
{I, X, Y, Z}, qubit index) pairs" (the operator classes themselves live in
the excluded operator-algebra layer). -/
inductive PauliOp where
  | I : PauliOp
  | X : PauliOp
  | Y : PauliOp
  | Z : PauliOp
deriving DecidableEq

/-- A Pauli term: ordered list of (label, wire) pairs, as the source consumes
via `term.name` / `term.wires`. -/
abbrev PauliTerm := List (PauliOp × Nat)

/-- Modelled from the spec: `qml.Hamiltonian` as consumed/produced by the
core — a weighted sum of Pauli terms whose coefficients are always `1.0`
here, so only the term list `ops` is represented. -/
structure Hamiltonian where
  ops : List PauliTerm
deriving DecidableEq

instance : Inhabited Hamiltonian := ⟨⟨[]⟩⟩

/-- One row of `_binary_matrix` (tapering.py lines 46-55): start from a zero
row of length `2 * num_qubits` and, for each `(op, wire)` factor of the term,
set column `wire + num_qubits` when the label is X or Y and column `wire`
when the label is Z or Y.  (The source's special case wrapping a bare name
for single-factor terms is the identity here: terms are uniformly lists.) -/
def termRowStep (num_qubits : Nat) (row : List Nat) (ow : PauliOp × Nat) :
    List Nat :=
  let row := if ow.1 = PauliOp.X ∨ ow.1 = PauliOp.Y then
      row.set (ow.2 + num_qubits) 1 else row
  if ow.1 = PauliOp.Z ∨ ow.1 = PauliOp.Y then row.set ow.2 1 else row

def termRow (num_qubits : Nat) (term : PauliTerm) : List Nat :=
  term.foldl (termRowStep num_qubits) (List.replicate (2 * num_qubits) 0)

/-- Embedding of `_binary_matrix(terms, num_qubits)`: one row per term. -/
def binary_matrix (terms : List PauliTerm) (num_qubits : Nat) : List (List Nat) :=
  terms.map (termRow num_qubits)

/-- Embedding of `np.argmax` on a vector of naturals: index of the first occurrence of the
maximum (0 on the empty vector). -/
def npArgmax : List Nat → Nat
  | [] => 0
  | a :: rest =>
    let j := npArgmax rest
    if rest.getD j 0 > a then j + 1 else 0

/-- Column `c` of a matrix, as numpy's `M[:, c]`. -/
def colSlice (M : List (List Nat)) (c : Nat) : List Nat :=
  M.map (fun row => row.getD c 0)

/-- The tuple-assignment row swap of tapering.py lines 90-92. -/
def swapRows (M : List (List Nat)) (i k : Nat) : List (List Nat) :=
  let ri := M.getD i []
  let rk := M.getD k []
  (M.set i rk).set k ri

/-- One diagonal step `(irow, icol) = (i, i)` of `_reduced_row_echelon`
(tapering.py lines 84-100): find `krow` by argmax on the tail of column `i`,
swap it to position `i`, then xor the outer product of the (self-cleared)
column `i` with the suffix of row `i` into the suffix columns. -/
def rrefStep (M : List (List Nat)) (i : Nat) : List (List Nat) :=
  let krow := i + npArgmax ((M.drop i).map (fun row => row.getD i 0))
  let M1 := swapRows M i krow
  let pvtcols := (M1.getD i []).drop i
  let currcol := (colSlice M1 i).set i 0
  M1.mapIdx (fun r row =>
    row.mapIdx (fun c v =>
      if i ≤ c then v ^^^ currcol.getD r 0 * pvtcols.getD (c - i) 0 else v))

/-- Embedding of `_reduced_row_echelon(binary_matrix)`: iterate the diagonal step for
`zip(range(shape[0]), range(shape[1]))`, i.e. `min R C` steps (the final
`astype(int)` is the identity on our representation). -/
def reduced_row_echelon (M : List (List Nat)) : List (List Nat) :=
  (List.range (min M.length (M.headD []).length)).foldl rrefStep M

/-- Per-row pivot search of `_kernel` line 130: `(M.T != 0).argmax(axis=0)`
gives, for each row, the column of its first nonzero entry (0 for an
all-zero row, numpy argmax convention). -/
def firstNonzeroIdx (row : List Nat) : Nat :=
  npArgmax (row.map (fun v => if v ≠ 0 then 1 else 0))

/-- The `pivots` array of `_kernel`. -/
def pivotsOf (M : List (List Nat)) : List Nat :=
  M.map firstNonzeroIdx

/-- Embedding of `np.setdiff1d(range(len(M[0])), pivots)`: the sorted column indices not
occurring among the pivots. -/
def nonpivotsOf (M : List (List Nat)) : List Nat :=
  (List.range (M.headD []).length).filter (fun c => !((pivotsOf M).contains c))

/-- Embedding of `_kernel(binary_matrix)` (tapering.py lines 129-143): seed a
`2N × K` builder with one free-variable indicator per nonpivot column, then
overwrite each row `pivots[r]` with row `r` of the matrix restricted to the
nonpivot columns (`-x % 2 = x` on bits; numpy fancy assignment keeps the
last write when a pivot index repeats, matched here by a left fold), and
transpose. -/
def kernel (M : List (List Nat)) : List (List Nat) :=
  let pivots := pivotsOf M
  let nonpivots := nonpivotsOf M
  let K := nonpivots.length
  let nv0 : List (List Nat) :=
    List.replicate (M.headD []).length (List.replicate K 0)
  let nv1 := (List.range K).foldl
    (fun nv j =>
      nv.set (nonpivots.getD j 0) ((nv.getD (nonpivots.getD j 0) []).set j 1))
    nv0
  let nv2 := (List.range M.length).foldl
    (fun nv r =>
      nv.set (pivots.getD r 0)
        (nonpivots.map (fun c => ((M.getD r []).getD c 0) % 2)))
    nv1
  (List.range K).map (fun j => nv2.map (fun row => row.getD j 0))

/-- The `pauli_map` dict of `generate_taus` keyed by the bit pair
`f"{x}{z}"`; other keys would raise `KeyError` in Python and cannot occur on
binary data (the catch-all case is arbitrary). -/
def pauli_map (x z : Nat) : PauliOp :=
  match x, z with
  | 0, 0 => PauliOp.I
  | 1, 0 => PauliOp.X
  | 1, 1 => PauliOp.Y
  | 0, 1 => PauliOp.Z
  | _, _ => PauliOp.I

/-- Embedding of `generate_taus(nullspace, num_qubits)`: for each nullspace vector, pair
`x = v[idx]` with `z = v[num_qubits + idx]` (`enumerate(zip(v[:N], v[N:]))`)
and tensor the mapped labels.  Modelled from the spec: the
`qml.Hamiltonian([1.0], [tau], simplify=True)` packaging keeps a single term
with coefficient 1.0 and drops identity factors ("simplification of repeated
identity factors is permitted/expected"), so identity labels are filtered
out of the term. -/
def generate_taus (nullspace : List (List Nat)) (num_qubits : Nat) :
    List Hamiltonian :=
  nullspace.map (fun nv =>
    let tau : PauliTerm :=
      ((nv.take num_qubits).zip (nv.drop num_qubits)).enum.filterMap
        (fun ip =>
          match pauli_map ip.2.1 ip.2.2 with
          | PauliOp.I => none
          | p => some (p, ip.1))
    ⟨[tau]⟩)

/-- The inner column scan of `generate_paulis` (tapering.py lines 215-223)
for one `row`: over columns `0 .. bmat.shape[1]//2 - 1`, find the first
column where `bmatrow = bmat[row]` is nonzero and
`bmatrest = np.delete(bmat, row, axis=0)` is all zero (the loop's `break`
after the first hit is `find?`). -/
def sigmaSearch (bmat : List (List Nat)) (row : Nat) : Option Nat :=
  let bmatrow := bmat.getD row []
  let bmatrest := bmat.eraseIdx row
  (List.range ((bmat.headD []).length / 2)).find? (fun col =>
    bmatrow.getD col 0 != 0 && bmatrest.all (fun r => r.getD col 0 == 0))

/-- Embedding of `generate_paulis(generators, num_qubits)` (tapering.py lines 210-225):
re-encode the first term of each generator (`g.ops[0]`) and run the column
scan on every row; the found column is the wire of the appended
`qml.PauliX`, so the result is the list of those wires.  A row with no
qualifying column contributes nothing. -/
def generate_paulis (generators : List Hamiltonian) (num_qubits : Nat) :
    List Nat :=
  let ops_generator := generators.map (fun g => g.ops.headD [])
  let bmat := binary_matrix ops_generator num_qubits
  (List.range bmat.length).filterMap (sigmaSearch bmat)

/-- Embedding of `generate_symmetries(qubit_op, num_qubits)` (tapering.py lines 259-277):
binary matrix → RREF → strip all-zero rows → kernel → taus → sigma-x list. -/
def generate_symmetries (qubit_op : Hamiltonian) (num_qubits : Nat) :
    List Hamiltonian × List Nat :=
  let bm := binary_matrix qubit_op.ops num_qubits
  let rref_bm := reduced_row_echelon bm
  let rref_red := rref_bm.filter (fun row => !(row.all (fun v => v == 0)))
  let nullspace := kernel rref_red
  let generators := generate_taus nullspace num_qubits
  let pauli_x := generate_paulis generators num_qubits
  (generators, pauli_x)

end Tapering

namespace Tapering

/-! ## Spec-side predicates and encodings -/

/-- A row is all zero. -/
def rowIsZero (row : List Nat) : Bool :=
  row.all (fun v => v == 0)

/-- Column index of a row's leading (first nonzero) entry; `row.length` for
an all-zero row. -/
def leadingCol (row : List Nat) : Nat :=
  row.findIdx (fun v => v != 0)

/-- Echelon property claimed for `_reduced_row_echelon`'s output: the leading
1 of every nonzero row lies strictly to the right of the leading 1 of every
nonzero row above it. -/
abbrev isEchelon (M : List (List Nat)) : Prop :=
  ∀ r1, r1 < M.length → ∀ r2, r2 < M.length → r1 < r2 →
    rowIsZero (M.getD r1 []) = false → rowIsZero (M.getD r2 []) = false →
    leadingCol (M.getD r1 []) < leadingCol (M.getD r2 [])

/-- Reduced property claimed for `_reduced_row_echelon`'s output: the pivot
column of every nonzero row holds 0 in every other row. -/
abbrev isReduced (M : List (List Nat)) : Prop :=
  ∀ r, r < M.length → rowIsZero (M.getD r []) = false →
    ∀ s, s < M.length → s ≠ r →
      (M.getD s []).getD (leadingCol (M.getD r [])) 0 = 0

/-- GF(2) dot product of two vectors. -/
def dotMod2 (u v : List Nat) : Nat :=
  (((u.zip v).map (fun p => p.1 * p.2)).sum) % 2

/-- GF(2) matrix-vector product, one dot product per row. -/
def matVecMod2 (M : List (List Nat)) (v : List Nat) : List Nat :=
  M.map (fun row => dotMod2 row v)

/-- Entrywise xor of two vectors (GF(2) sum). -/
def xorVec (u v : List Nat) : List Nat :=
  (u.zip v).map (fun p => p.1 ^^^ p.2)

/-- The term acts as X or Y on qubit `i`. -/
abbrev actsXorY (t : PauliTerm) (i : Nat) : Prop :=
  ∃ p ∈ t, (p.1 = PauliOp.X ∨ p.1 = PauliOp.Y) ∧ p.2 = i

/-- The term acts as Z or Y on qubit `i`. -/
abbrev actsZorY (t : PauliTerm) (i : Nat) : Prop :=
  ∃ p ∈ t, (p.1 = PauliOp.Z ∨ p.1 = PauliOp.Y) ∧ p.2 = i

/-- The column layout asserted by the spec for `_binary_matrix`: first `N`
columns are the X-or-Y indicators, last `N` columns the Z-or-Y indicators. -/
abbrev specColumnLayout (terms : List PauliTerm) (N : Nat) : Prop :=
  ∀ t, t < terms.length → ∀ i, i < N →
    (((binary_matrix terms N).getD t []).getD i 0 = 1 ↔
      actsXorY (terms.getD t []) i) ∧
    (((binary_matrix terms N).getD t []).getD (N + i) 0 = 1 ↔
      actsZorY (terms.getD t []) i)

/-- Symplectic inner product mod 2 of two `2N`-bit encodings in the (Z|X)
layout of `_binary_matrix`: the X-part of each against the Z-part of the
other. -/
def symplectic_product (num_qubits : Nat) (u v : List Nat) : Nat :=
  (((List.range num_qubits).map (fun i =>
      u.getD i 0 * v.getD (num_qubits + i) 0 +
      u.getD (num_qubits + i) 0 * v.getD i 0)).sum) % 2

/-- Binary encoding of the single-qubit operator `qml.PauliX(w)`, via
`_binary_matrix`. -/
def sigma_x_encoding (w num_qubits : Nat) : List Nat :=
  (binary_matrix [[(PauliOp.X, w)]] num_qubits).headD []

/-- Binary encoding of a generator, i.e. of its first term — for the
single-term generators produced by `generate_taus` this is the generator's
encoding, and it is exactly what `generate_paulis` re-encodes (line 210). -/
def generator_encoding (g : Hamiltonian) (num_qubits : Nat) : List Nat :=
  (binary_matrix [g.ops.headD []] num_qubits).headD []

/-- Which bit of a (Z|X) row a single `(label, wire)` factor sets: column
`wire + N` for X/Y, column `wire` for Z/Y. -/
def hitsBit (N c : Nat) (p : PauliOp × Nat) : Prop :=
  ((p.1 = PauliOp.X ∨ p.1 = PauliOp.Y) ∧ p.2 + N = c) ∨
  ((p.1 = PauliOp.Z ∨ p.1 = PauliOp.Y) ∧ p.2 = c)

instance (N c : Nat) (p : PauliOp × Nat) : Decidable (hitsBit N c p) := by
  unfold hitsBit; infer_instance

/-- State of a `_reduced_row_echelon` call: the caller's array
`binary_matrix` and the function-local deep copy `rref_binary_matrix`
(tapering.py line 81).  Every write of the reduction loop (lines 90-100)
targets `rref_binary_matrix`, which the step function makes explicit. -/
structure RrefCallState where
  binary_matrix : List (List Nat)
  rref_binary_matrix : List (List Nat)

def rrefCallStep (s : RrefCallState) (i : Nat) : RrefCallState :=
  { s with rref_binary_matrix := rrefStep s.rref_binary_matrix i }

/-- The whole call, starting from the deep copy of the input. -/
def rrefCall (M : List (List Nat)) : RrefCallState :=
  (List.range (min M.length (M.headD []).length)).foldl rrefCallStep ⟨M, M⟩

end Tapering

namespace Tapering

/-! ## Concrete-scenario and bug-exhibiting theorems -/

/-- C2: on the three terms Z0 X1, Z0 Y2, X0 Y3 with 4 qubits, the binary
matrix, its reduced row-echelon form, and the generators produced by the full
pipeline are exactly the claimed literals, in the claimed order. -/
theorem concrete_scenario_pipeline :
    binary_matrix
        [[(PauliOp.Z,0),(PauliOp.X,1)], [(PauliOp.Z,0),(PauliOp.Y,2)],
         [(PauliOp.X,0),(PauliOp.Y,3)]] 4 =
      [[1,0,0,0,0,1,0,0],[1,0,1,0,0,0,1,0],[0,0,0,1,1,0,0,1]] ∧
    reduced_row_echelon
        [[1,0,0,0,0,1,0,0],[1,0,1,0,0,0,1,0],[0,0,0,1,1,0,0,1]] =
      [[1,0,0,0,0,1,0,0],[0,0,1,1,1,1,1,1],[0,0,0,1,1,0,0,1]] ∧
    (generate_symmetries
        ⟨[[(PauliOp.Z,0),(PauliOp.X,1)], [(PauliOp.Z,0),(PauliOp.Y,2)],
          [(PauliOp.X,0),(PauliOp.Y,3)]]⟩ 4).1 =
      [⟨[[(PauliOp.X,1)]]⟩,
       ⟨[[(PauliOp.Z,0),(PauliOp.X,2),(PauliOp.X,3)]]⟩,
       ⟨[[(PauliOp.X,0),(PauliOp.Z,1),(PauliOp.X,2)]]⟩,
       ⟨[[(PauliOp.Y,2)]]⟩,
       ⟨[[(PauliOp.X,2),(PauliOp.Y,3)]]⟩] := by
  refine ⟨by decide, by decide, by decide⟩

/-- C4 (code bug): on the binary matrix [[0,0,1,1],[0,0,1,0]] — the encoding
of the 2-qubit Hamiltonian with terms X0 X1 and X0 — `_reduced_row_echelon`
returns its input unchanged, and that output violates both the echelon and
the reduced invariant (both rows lead in column 2). -/
theorem rref_invariants_fail :
    reduced_row_echelon [[0,0,1,1],[0,0,1,0]] = [[0,0,1,1],[0,0,1,0]] ∧
    ¬ isEchelon (reduced_row_echelon [[0,0,1,1],[0,0,1,0]]) ∧
    ¬ isReduced (reduced_row_echelon [[0,0,1,1],[0,0,1,0]]) := by
  refine ⟨by decide, by decide, by decide⟩

/-- C5 (code bug): the matrix [[0,0,1,1],[0,0,1,0]] has GF(2)-rank 2 (both
rows and their xor-sum are nonzero), so with `2N = 4` the claim demands
`2N − ρ = 2` kernel vectors; but `_kernel` on the zero-row-stripped
`_reduced_row_echelon` output returns 3 vectors, one of which is not even in
the nullspace of that stripped matrix. -/
theorem kernel_rank_fail :
    ([0,0,1,1] : List Nat) ≠ [0,0,0,0] ∧
    ([0,0,1,0] : List Nat) ≠ [0,0,0,0] ∧
    xorVec [0,0,1,1] [0,0,1,0] ≠ [0,0,0,0] ∧
    (kernel ((reduced_row_echelon [[0,0,1,1],[0,0,1,0]]).filter
        (fun row => !(row.all (fun v => v == 0))))).length = 3 ∧
    ∃ v ∈ kernel ((reduced_row_echelon [[0,0,1,1],[0,0,1,0]]).filter
        (fun row => !(row.all (fun v => v == 0)))),
      matVecMod2 ((reduced_row_echelon [[0,0,1,1],[0,0,1,0]]).filter
        (fun row => !(row.all (fun v => v == 0)))) v ≠ [0, 0] := by
  refine ⟨by decide, by decide, by decide, by decide, by decide⟩

/-- C7 (code bug): `_reduced_row_echelon` is not idempotent: on
[[1,1,0],[0,0,1]] (itself already a reduced row-echelon matrix) one
application yields [[1,1,1],[0,0,1]] and a second application undoes it, so
applying the reduction twice differs from applying it once. -/
theorem rref_not_idempotent :
    reduced_row_echelon [[1,1,0],[0,0,1]] = [[1,1,1],[0,0,1]] ∧
    reduced_row_echelon (reduced_row_echelon [[1,1,0],[0,0,1]]) =
      [[1,1,0],[0,0,1]] ∧
    reduced_row_echelon (reduced_row_echelon [[1,1,0],[0,0,1]]) ≠
      reduced_row_echelon [[1,1,0],[0,0,1]] := by
  refine ⟨by decide, by decide, by decide⟩

/-- C3 (counterexample): for the single generator X0 on one qubit no
qualifying column exists, and `generate_paulis` neither raises nor returns
one Pauli-X per generator — it silently returns the empty list, shorter than
the generator list. -/
theorem generate_paulis_skips_generator :
    generate_paulis [⟨[[(PauliOp.X, 0)]]⟩] 1 = [] ∧
    (generate_paulis [⟨[[(PauliOp.X, 0)]]⟩] 1).length ≠
      ([⟨[[(PauliOp.X, 0)]]⟩] : List Hamiltonian).length := by
  refine ⟨by decide, by decide⟩

/-- C6 (counterexample): the claimed column layout (first N columns = X-part,
last N = Z-part) is false: for the single term X0 with one qubit,
`_binary_matrix` returns [[0, 1]], so column 0 is 0 although the term acts as
X on qubit 0. -/
theorem binary_matrix_layout_claim_false :
    ¬ specColumnLayout [[(PauliOp.X, 0)]] 1 := by
  intro h
  have hx : actsXorY (([[(PauliOp.X, 0)]] : List PauliTerm).getD 0 []) 0 :=
    ⟨(PauliOp.X, 0), by decide, by decide⟩
  have h1 := (h 0 (by decide) 0 (by decide)).1.mpr hx
  exact absurd h1 (by decide)

end Tapering

namespace Tapering

/-! ## Helper lemmas -/

theorem getD_eq_getElem' {α} (l : List α) (d : α) {i : Nat} (h : i < l.length) :
    l.getD i d = l[i] := by
  rw [List.getD_eq_getElem?_getD, List.getElem?_eq_getElem h, Option.getD_some]

theorem getD_set_bit (row : List Nat) (j c : Nat) (hc : c < row.length) :
    (row.set j 1).getD c 0 = if j = c then 1 else row.getD c 0 := by
  by_cases hjc : j = c
  · subst hjc
    simp [List.getD_eq_getElem?_getD, List.getElem?_set, hc]
  · simp [List.getD_eq_getElem?_getD, List.getElem?_set, hjc]

theorem mem_eraseIdx_of_ne {α} {M : List α} {j row : Nat} (hj : j < M.length)
    (hne : j ≠ row) : M[j] ∈ M.eraseIdx row := by
  rcases Nat.lt_or_ge j row with hlt | hge
  · have h' : j < (M.eraseIdx row).length := by
      rw [List.length_eraseIdx]; split <;> omega
    have he := List.getElem_eraseIdx M row j h'
    rw [dif_pos hlt] at he
    exact he ▸ List.getElem_mem h'
  · have hrow : row < j := lt_of_le_of_ne hge (Ne.symm hne)
    obtain ⟨k, rfl⟩ : ∃ k, j = k + 1 := ⟨j - 1, by omega⟩
    have h' : k < (M.eraseIdx row).length := by
      rw [List.length_eraseIdx]; split <;> omega
    have he := List.getElem_eraseIdx M row k h'
    rw [dif_neg (by omega)] at he
    exact he ▸ List.getElem_mem h'

theorem filterMap_full {α β} {f : α → Option β} :
    ∀ {l : List α}, (l.filterMap f).length = l.length → ∀ x ∈ l, (f x).isSome := by
  intro l
  induction l with
  | nil => intro _ x hx; cases hx
  | cons a t ih =>
    intro h x hx
    rw [List.filterMap_cons] at h
    cases hfa : f a with
    | none =>
      rw [hfa] at h
      have := List.length_filterMap_le f t
      simp only [List.length_cons] at h
      omega
    | some b =>
      rw [hfa] at h
      simp only [List.length_cons] at h
      rcases List.mem_cons.mp hx with rfl | hx'
      · simp [hfa]
      · exact ih (Nat.succ_injective h) x hx'

theorem filterMap_eq_map_of_full {α β} (f : α → Option β) (d : β) :
    ∀ (l : List α), (∀ x ∈ l, (f x).isSome) →
      l.filterMap f = l.map (fun x => (f x).getD d) := by
  intro l
  induction l with
  | nil => intro; rfl
  | cons a t ih =>
    intro h
    cases hfa : f a with
    | none => exact absurd (h a (List.mem_cons_self a t)) (by simp [hfa])
    | some b =>
      simp only [List.filterMap_cons, List.map_cons, hfa, Option.getD_some]
      exact congrArg (b :: ·) (ih fun x hx => h x (List.mem_cons_of_mem a hx))

theorem sum_range_single (N w : Nat) (hw : w < N) (f : Nat → Nat)
    (h0 : ∀ i, i < N → i ≠ w → f i = 0) :
    ((List.range N).map f).sum = f w := by
  induction N with
  | zero => omega
  | succ n ih =>
    rw [List.range_succ, List.map_append, List.sum_append]
    simp only [List.map_cons, List.map_nil, List.sum_cons, List.sum_nil]
    rcases Nat.lt_succ_iff_lt_or_eq.mp hw with h | rfl
    · rw [ih h (fun i hi hne => h0 i (by omega) hne), h0 n (by omega) (by omega)]
      omega
    · have hz : ((List.range w).map f).sum = 0 :=
        List.sum_eq_zero fun x hx => by
          obtain ⟨i, hi, rfl⟩ := List.mem_map.mp hx
          exact h0 i (by simp at hi; omega) (by simp at hi; omega)
      rw [hz]; omega

end Tapering

namespace Tapering

theorem termRowStep_length (N : Nat) (row : List Nat) (a : PauliOp × Nat) :
    (termRowStep N row a).length = row.length := by
  unfold termRowStep
  split <;> split <;> simp [List.length_set]

theorem termRowStep_getD (N c : Nat) (row : List Nat) (a : PauliOp × Nat)
    (hc : c < row.length) :
    (termRowStep N row a).getD c 0 =
      if hitsBit N c a then 1 else row.getD c 0 := by
  unfold termRowStep hitsBit
  by_cases h1 : a.1 = PauliOp.X ∨ a.1 = PauliOp.Y <;>
    by_cases h2 : a.1 = PauliOp.Z ∨ a.1 = PauliOp.Y <;>
      simp only [h1, h2, if_true, if_false, ite_true, ite_false]
  · rw [getD_set_bit _ _ _ (by simp [List.length_set, hc]),
      getD_set_bit _ _ _ hc]
    by_cases hz : a.2 = c <;> by_cases hx : a.2 + N = c <;>
      simp [hz, hx, h1, h2]
  · rw [getD_set_bit _ _ _ hc]
    by_cases hx : a.2 + N = c <;> simp [hx, h1, h2]
  · rw [getD_set_bit _ _ _ hc]
    by_cases hz : a.2 = c <;> simp [hz, h1, h2]
  · simp [h1, h2]

theorem termRow_foldl_length (N : Nat) :
    ∀ (t : PauliTerm) (row : List Nat),
      (t.foldl (termRowStep N) row).length = row.length := by
  intro t
  induction t with
  | nil => intro row; rfl
  | cons a tl ih =>
    intro row
    rw [List.foldl_cons, ih, termRowStep_length]

theorem termRow_length (N : Nat) (t : PauliTerm) :
    (termRow N t).length = 2 * N := by
  unfold termRow
  rw [termRow_foldl_length, List.length_replicate]

theorem termRow_foldl_getD (N c : Nat) :
    ∀ (t : PauliTerm) (row : List Nat), c < row.length →
      (t.foldl (termRowStep N) row).getD c 0 =
        if ∃ p ∈ t, hitsBit N c p then 1 else row.getD c 0 := by
  intro t
  induction t with
  | nil => intro row _; simp
  | cons a tl ih =>
    intro row hc
    rw [List.foldl_cons,
      ih _ (by rw [termRowStep_length]; exact hc),
      termRowStep_getD _ _ _ _ hc]
    by_cases hA : hitsBit N c a <;> by_cases hEx : ∃ p ∈ tl, hitsBit N c p <;>
      simp [hA, hEx, List.mem_cons]

theorem termRow_getD (N c : Nat) (t : PauliTerm) (hc : c < 2 * N) :
    (termRow N t).getD c 0 = if ∃ p ∈ t, hitsBit N c p then 1 else 0 := by
  unfold termRow
  rw [termRow_foldl_getD _ _ _ _ (by simpa using hc)]
  simp [List.getD_eq_getElem?_getD, List.getElem?_replicate, hc]

theorem termRow_getD_beyond (N c : Nat) (t : PauliTerm) (hc : 2 * N ≤ c) :
    (termRow N t).getD c 0 = 0 :=
  List.getD_eq_default _ _ (by rw [termRow_length]; exact hc)

theorem termRow_entry_cases (N c : Nat) (t : PauliTerm) :
    (termRow N t).getD c 0 = 0 ∨ (termRow N t).getD c 0 = 1 := by
  rcases Nat.lt_or_ge c (2 * N) with hc | hc
  · rw [termRow_getD _ _ _ hc]; split <;> simp
  · rw [termRow_getD_beyond _ _ _ hc]; left; rfl

theorem hitsBit_lt (N i : Nat) (hi : i < N) (p : PauliOp × Nat) :
    hitsBit N i p ↔ (p.1 = PauliOp.Z ∨ p.1 = PauliOp.Y) ∧ p.2 = i := by
  have hne : p.2 + N ≠ i := by omega
  simp [hitsBit, hne]

theorem hitsBit_ge (N i : Nat) (p : PauliOp × Nat) (hp : p.2 < N) :
    hitsBit N (N + i) p ↔ (p.1 = PauliOp.X ∨ p.1 = PauliOp.Y) ∧ p.2 = i := by
  have h1 : (p.2 + N = N + i) ↔ p.2 = i := by omega
  have h2 : p.2 ≠ N + i := by omega
  simp [hitsBit, h1, h2]

end Tapering

namespace Tapering

theorem binary_matrix_getD_row (terms : List PauliTerm) (N : Nat) {t : Nat}
    (ht : t < terms.length) :
    (binary_matrix terms N).getD t [] = termRow N (terms.getD t []) := by
  unfold binary_matrix
  rw [getD_eq_getElem' _ _ (by simpa using ht), List.getElem_map,
    getD_eq_getElem' _ _ ht]

/-- C6 (amended): with all wires in range, `_binary_matrix` puts the Z-or-Y
indicator of qubit `i` in column `i` (first `N` columns) and the X-or-Y
indicator in column `N + i` (last `N` columns) — the transpose of the
claimed layout. -/
theorem binary_matrix_column_layout (terms : List PauliTerm) (N : Nat)
    (hw : ∀ t ∈ terms, ∀ p ∈ t, p.2 < N) :
    ∀ t, t < terms.length → ∀ i, i < N →
      (((binary_matrix terms N).getD t []).getD i 0 = 1 ↔
        actsZorY (terms.getD t []) i) ∧
      (((binary_matrix terms N).getD t []).getD (N + i) 0 = 1 ↔
        actsXorY (terms.getD t []) i) := by
  intro t ht i hi
  rw [binary_matrix_getD_row terms N ht]
  have htm : terms.getD t [] ∈ terms := by
    rw [getD_eq_getElem' _ _ ht]; exact List.getElem_mem ht
  constructor
  · rw [termRow_getD _ _ _ (by omega)]
    have hiff : (∃ p ∈ terms.getD t [], hitsBit N i p) ↔
        actsZorY (terms.getD t []) i :=
      exists_congr fun p =>
        and_congr_right fun _ => hitsBit_lt N i hi p
    by_cases hEx : ∃ p ∈ terms.getD t [], hitsBit N i p
    · rw [if_pos hEx]
      exact ⟨fun _ => hiff.mp hEx, fun _ => rfl⟩
    · rw [if_neg hEx]
      exact ⟨fun h => absurd h (by decide),
        fun h => absurd (hiff.mpr h) hEx⟩
  · rw [termRow_getD _ _ _ (by omega)]
    have hiff : (∃ p ∈ terms.getD t [], hitsBit N (N + i) p) ↔
        actsXorY (terms.getD t []) i :=
      exists_congr fun p =>
        and_congr_right fun hp => hitsBit_ge N i p (hw _ htm p hp)
    by_cases hEx : ∃ p ∈ terms.getD t [], hitsBit N (N + i) p
    · rw [if_pos hEx]
      exact ⟨fun _ => hiff.mp hEx, fun _ => rfl⟩
    · rw [if_neg hEx]
      exact ⟨fun h => absurd h (by decide),
        fun h => absurd (hiff.mpr h) hEx⟩

/-- Witness for the amended C6 theorem at the term Z0 X1 with N = 2,
row 0, qubit 0. -/
theorem binary_matrix_column_layout_witness :
    (∀ t ∈ ([[(PauliOp.Z,0),(PauliOp.X,1)]] : List PauliTerm),
      ∀ p ∈ t, p.2 < 2) ∧
    ((((binary_matrix [[(PauliOp.Z,0),(PauliOp.X,1)]] 2).getD 0 []).getD 0 0
        = 1 ↔
      actsZorY (([[(PauliOp.Z,0),(PauliOp.X,1)]] :
        List PauliTerm).getD 0 []) 0) ∧
     (((binary_matrix [[(PauliOp.Z,0),(PauliOp.X,1)]] 2).getD 0 []).getD
        (2 + 0) 0 = 1 ↔
      actsXorY (([[(PauliOp.Z,0),(PauliOp.X,1)]] :
        List PauliTerm).getD 0 []) 0)) :=
  ⟨by decide,
   binary_matrix_column_layout _ 2 (by decide) 0 (by decide) 0 (by decide)⟩

end Tapering

namespace Tapering

/-- C3 (amended): `generate_paulis` returns at most one Pauli-X per
generator; rows whose column scan fails are silently dropped, so the result
is never longer than the generator list (and can be shorter). -/
theorem generate_paulis_length_le (gens : List Hamiltonian) (N : Nat) :
    (generate_paulis gens N).length ≤ gens.length := by
  have h := List.length_filterMap_le
    (sigmaSearch (binary_matrix (gens.map fun g => g.ops.headD []) N))
    (List.range (binary_matrix (gens.map fun g => g.ops.headD []) N).length)
  simpa [generate_paulis, binary_matrix] using h

theorem rrefCall_foldl (l : List Nat) (s : RrefCallState) :
    (l.foldl rrefCallStep s).binary_matrix = s.binary_matrix ∧
    (l.foldl rrefCallStep s).rref_binary_matrix =
      l.foldl rrefStep s.rref_binary_matrix := by
  induction l generalizing s with
  | nil => exact ⟨rfl, rfl⟩
  | cons a t ih =>
    rw [List.foldl_cons, List.foldl_cons]
    exact (ih (rrefCallStep s a))

/-- C9: after the `_reduced_row_echelon` call, the caller's matrix is
bit-for-bit unchanged — all mutation happens on the deep copy, which is
returned and equals `reduced_row_echelon` of the input. -/
theorem rref_frame (M : List (List Nat)) :
    (rrefCall M).binary_matrix = M ∧
    (rrefCall M).rref_binary_matrix = reduced_row_echelon M := by
  unfold rrefCall reduced_row_echelon
  exact rrefCall_foldl _ ⟨M, M⟩

/-- C10: `generate_paulis` reads only the first term of each generator
(`g.ops[0]`, tapering.py line 210), so two generator lists of equal length
whose generators have (existing) pairwise-equal first terms produce
identical outputs. -/
theorem generate_paulis_first_term_only (g1 g2 : List Hamiltonian) (N : Nat)
    (hlen : g1.length = g2.length)
    (hne1 : ∀ g ∈ g1, g.ops ≠ []) (hne2 : ∀ g ∈ g2, g.ops ≠ [])
    (hfst : ∀ i, i < g1.length →
      (g1.getD i default).ops.headD [] = (g2.getD i default).ops.headD []) :
    generate_paulis g1 N = generate_paulis g2 N := by
  have hmap : g1.map (fun g => g.ops.headD []) =
      g2.map (fun g => g.ops.headD []) := by
    apply List.ext_getElem (by simp [hlen])
    intro i h1 h2
    rw [List.getElem_map, List.getElem_map]
    have := hfst i (by simpa using h1)
    rwa [getD_eq_getElem' _ _ (by simpa using h1),
      getD_eq_getElem' _ _ (by simp at h1; omega)] at this
  simp only [generate_paulis]
  rw [hmap]

/-- Witness for the C10 theorem: two single-generator lists agreeing on the
first term but differing in later terms give the same sigma-x list. -/
theorem generate_paulis_first_term_only_witness :
    ([⟨[[(PauliOp.Z,0)],[(PauliOp.X,9)]]⟩] : List Hamiltonian).length =
      ([⟨[[(PauliOp.Z,0)],[(PauliOp.Y,5)]]⟩] : List Hamiltonian).length ∧
    (∀ g ∈ ([⟨[[(PauliOp.Z,0)],[(PauliOp.X,9)]]⟩] : List Hamiltonian),
      g.ops ≠ []) ∧
    (∀ g ∈ ([⟨[[(PauliOp.Z,0)],[(PauliOp.Y,5)]]⟩] : List Hamiltonian),
      g.ops ≠ []) ∧
    (∀ i, i < ([⟨[[(PauliOp.Z,0)],[(PauliOp.X,9)]]⟩] :
        List Hamiltonian).length →
      (([⟨[[(PauliOp.Z,0)],[(PauliOp.X,9)]]⟩] :
        List Hamiltonian).getD i default).ops.headD [] =
      (([⟨[[(PauliOp.Z,0)],[(PauliOp.Y,5)]]⟩] :
        List Hamiltonian).getD i default).ops.headD []) ∧
    generate_paulis [⟨[[(PauliOp.Z,0)],[(PauliOp.X,9)]]⟩] 1 =
      generate_paulis [⟨[[(PauliOp.Z,0)],[(PauliOp.Y,5)]]⟩] 1 :=
  ⟨by decide, by decide, by decide, by decide,
   generate_paulis_first_term_only _ _ 1 (by decide) (by decide) (by decide)
     (by decide)⟩

theorem kernel_eq_nil {M : List (List Nat)} (h : nonpivotsOf M = []) :
    kernel M = [] := by
  simp only [kernel, h, List.length_nil, List.range_zero, List.map_nil]

/-- C8: when the zero-row-stripped reduction of the Hamiltonian's binary
matrix has no free (non-pivot) columns — the operational meaning of full
column rank `2N` — the pipeline returns an empty generator list and an
empty sigma-x list, with no error path involved. -/
theorem generate_symmetries_empty (H : Hamiltonian) (N : Nat)
    (h : nonpivotsOf ((reduced_row_echelon (binary_matrix H.ops N)).filter
        (fun row => !(row.all (fun v => v == 0)))) = []) :
    generate_symmetries H N = ([], []) := by
  simp only [generate_symmetries, kernel_eq_nil h]
  rfl

/-- Witness for the C8 theorem: the 1-qubit Hamiltonian with terms X0 and Z0
has full-column-rank binary matrix; the pipeline returns two empty lists. -/
theorem generate_symmetries_empty_witness :
    nonpivotsOf ((reduced_row_echelon
        (binary_matrix (Hamiltonian.mk [[(PauliOp.X,0)],[(PauliOp.Z,0)]]).ops
          1)).filter
        (fun row => !(row.all (fun v => v == 0)))) = [] ∧
    generate_symmetries ⟨[[(PauliOp.X,0)],[(PauliOp.Z,0)]]⟩ 1 = ([], []) :=
  ⟨by decide, generate_symmetries_empty _ 1 (by decide)⟩

end Tapering

namespace Tapering

/-- C1: whenever `generate_paulis` finds one Pauli-X per (single-term)
generator, the symplectic inner product of SigmaX[i]'s encoding with
generator[j]'s encoding is 1 exactly when `i = j` (anticommutes with its own
generator) and 0 otherwise (commutes with all others). -/
theorem generate_paulis_anticommutation (gens : List Hamiltonian) (N : Nat)
    (hsingle : ∀ g ∈ gens, g.ops.length = 1)
    (hlen : (generate_paulis gens N).length = gens.length) :
    ∀ i j, i < gens.length → j < gens.length →
      symplectic_product N
        (sigma_x_encoding ((generate_paulis gens N).getD i 0) N)
        (generator_encoding (gens.getD j default) N) =
      if i = j then 1 else 0 := by
  intro i j hi hj
  set bmat := binary_matrix (gens.map fun g => g.ops.headD []) N with hbmat
  have hGP : generate_paulis gens N =
      (List.range bmat.length).filterMap (sigmaSearch bmat) := rfl
  have hblen : bmat.length = gens.length := by simp [hbmat, binary_matrix]
  have hsome : ∀ r ∈ List.range bmat.length, (sigmaSearch bmat r).isSome := by
    apply filterMap_full
    rw [← hGP, hlen, List.length_range, hblen]
  have hir : i < bmat.length := by rw [hblen]; exact hi
  obtain ⟨w, hw⟩ := Option.isSome_iff_exists.mp (hsome i (List.mem_range.mpr hir))
  have houti : (generate_paulis gens N).getD i 0 = w := by
    rw [hGP, filterMap_eq_map_of_full _ 0 _ hsome,
      getD_eq_getElem' _ _ (by simpa using hir), List.getElem_map,
      List.getElem_range, hw, Option.getD_some]
  have hne : gens ≠ [] := by
    intro h; rw [h] at hi; simp at hi
  have hhead : (bmat.headD []).length = 2 * N := by
    cases gens with
    | nil => exact absurd rfl hne
    | cons g0 gt => simp [hbmat, binary_matrix, termRow_length]
  simp only [sigmaSearch] at hw
  have hwmem := List.mem_of_find?_eq_some hw
  have hwN : w < N := by
    rw [hhead] at hwmem
    simp only [List.mem_range] at hwmem
    omega
  have hpred := List.find?_some hw
  simp only [Bool.and_eq_true, bne_iff_ne, ne_eq, List.all_eq_true,
    beq_iff_eq] at hpred
  obtain ⟨hp1, hp2⟩ := hpred
  have hrow : ∀ k, k < gens.length →
      bmat.getD k [] = termRow N ((gens.getD k default).ops.headD []) := by
    intro k hk
    rw [hbmat, binary_matrix_getD_row _ _ (by simpa using hk)]
    congr 1
    rw [getD_eq_getElem' _ _ (by simpa using hk), List.getElem_map,
      getD_eq_getElem' _ _ hk]
  have h1 : (bmat.getD i []).getD w 0 = 1 := by
    rcases (hrow i hi) ▸ termRow_entry_cases N w
        ((gens.getD i default).ops.headD []) with h | h
    · exact absurd h hp1
    · exact h
  have h0 : ∀ k, k < gens.length → k ≠ i →
      (bmat.getD k []).getD w 0 = 0 := by
    intro k hk hki
    have hkb : k < bmat.length := by rw [hblen]; exact hk
    rw [getD_eq_getElem' bmat [] hkb]
    exact hp2 _ (mem_eraseIdx_of_ne hkb hki)
  have hsx : ∀ c, (sigma_x_encoding w N).getD c 0 =
      if c = w + N then 1 else 0 := by
    intro c
    show (termRow N [(PauliOp.X, w)]).getD c 0 = _
    rcases Nat.lt_or_ge c (2 * N) with hc | hc
    · rw [termRow_getD _ _ _ hc]
      by_cases hcw : c = w + N
      · rw [if_pos ⟨(PauliOp.X, w), by simp,
          Or.inl ⟨Or.inl rfl, hcw.symm⟩⟩, if_pos hcw]
      · rw [if_neg ?_, if_neg hcw]
        rintro ⟨p, hp, hhit⟩
        rw [List.mem_singleton] at hp
        subst hp
        rcases hhit with ⟨_, hcon⟩ | ⟨habs, _⟩
        · exact hcw hcon.symm
        · rcases habs with h | h <;> exact PauliOp.noConfusion h
    · rw [termRow_getD_beyond _ _ _ hc, if_neg (by omega)]
  have hgen : generator_encoding (gens.getD j default) N = bmat.getD j [] := by
    rw [hrow j hj]; rfl
  rw [houti, hgen]
  unfold symplectic_product
  have hsum : ((List.range N).map (fun k =>
      (sigma_x_encoding w N).getD k 0 * (bmat.getD j []).getD (N + k) 0 +
      (sigma_x_encoding w N).getD (N + k) 0 * (bmat.getD j []).getD k 0)).sum
      = (bmat.getD j []).getD w 0 := by
    rw [sum_range_single N w hwN _ ?_]
    · rw [hsx w, hsx (N + w), if_neg (by omega), if_pos (by omega)]
      ring
    · intro k hk hkw
      rw [hsx k, hsx (N + k), if_neg (by omega), if_neg (by omega)]
      ring
  rw [hsum]
  by_cases hij : i = j
  · subst hij
    rw [h1]
    simp
  · rw [h0 j hj (fun h => hij h.symm)]
    simp [hij]

/-- Witness for the C1 theorem: three single-term generators Z0 Z1, Z0 Z2,
Z0 Z3 on 4 qubits, where `generate_paulis` returns the three wires
[1, 2, 3]; instantiated at i = 0, j = 1. -/
theorem generate_paulis_anticommutation_witness :
    (∀ g ∈ ([⟨[[(PauliOp.Z,0),(PauliOp.Z,1)]]⟩,
        ⟨[[(PauliOp.Z,0),(PauliOp.Z,2)]]⟩,
        ⟨[[(PauliOp.Z,0),(PauliOp.Z,3)]]⟩] : List Hamiltonian),
      g.ops.length = 1) ∧
    (generate_paulis [⟨[[(PauliOp.Z,0),(PauliOp.Z,1)]]⟩,
        ⟨[[(PauliOp.Z,0),(PauliOp.Z,2)]]⟩,
        ⟨[[(PauliOp.Z,0),(PauliOp.Z,3)]]⟩] 4).length =
      ([⟨[[(PauliOp.Z,0),(PauliOp.Z,1)]]⟩,
        ⟨[[(PauliOp.Z,0),(PauliOp.Z,2)]]⟩,
        ⟨[[(PauliOp.Z,0),(PauliOp.Z,3)]]⟩] : List Hamiltonian).length ∧
    symplectic_product 4
      (sigma_x_encoding ((generate_paulis [⟨[[(PauliOp.Z,0),(PauliOp.Z,1)]]⟩,
        ⟨[[(PauliOp.Z,0),(PauliOp.Z,2)]]⟩,
        ⟨[[(PauliOp.Z,0),(PauliOp.Z,3)]]⟩] 4).getD 0 0) 4)
      (generator_encoding (([⟨[[(PauliOp.Z,0),(PauliOp.Z,1)]]⟩,
        ⟨[[(PauliOp.Z,0),(PauliOp.Z,2)]]⟩,
        ⟨[[(PauliOp.Z,0),(PauliOp.Z,3)]]⟩] :
          List Hamiltonian).getD 1 default) 4) =
      if 0 = 1 then 1 else 0 :=
  ⟨by decide, by decide,
   generate_paulis_anticommutation _ 4 (by decide) (by decide) 0 1
     (by decide) (by decide)⟩

end Tapering
